import Mathlib

/-!
Verification development for the `apache-autoindex-parse` repository.

The repository parses Apache mod_autoindex HTML listings (three layouts,
`F0`/`F1`/`F2`) into entry records and recursively traverses remote
listings.  The development below is a shallow embedding of
`src/index.ts` (the parse facade, format inferencer and the three
extractors) and `src/traverse.ts` (the traversal engine), together with
the path helpers of `src/lib.ts`.

Modelling conventions:
* Strings are Lean `String`s; all scanning helpers work on the
  underlying `List Char` (the sources treat strings as char sequences).
* The third-party HTML parser (`node-html-parser`) is an external
  collaborator.  It is modelled by a small DOM tree (`Dom`) offering
  exactly the operations the sources use (`querySelector`,
  `querySelectorAll`, `getAttribute`, `textContent`, `innerHTML`).
  Following the behaviour the sources rely on, the content of a `pre`
  element is kept as one raw text node (the sources re-scan that raw
  markup with regular expressions).
* Each regular expression used by the sources is embedded as a
  dedicated scanner with the same matching behaviour (leftmost match,
  global scans resume after the end of the previous match).
* JavaScript exceptions are modelled with `Option`: a function that can
  throw returns `none` for "an exception escaped".
* `Date` parsing (another external collaborator) is modelled for the
  ISO-like strings the sources construct; see `jsDateIso`.
-/

namespace AutoIndexParse

/-! ## Character-list utilities -/

/-- Decidable prefix test on char lists (`pat` is the candidate prefix). -/
def listPfx : List Char → List Char → Bool
  | [], _ => true
  | _ :: _, [] => false
  | a :: as, b :: bs => a == b && listPfx as bs

/-- JS `String.prototype.startsWith`. -/
def sStarts (s pat : String) : Bool := listPfx pat.data s.data

/-- JS `String.prototype.endsWith`. -/
def sEnds (s pat : String) : Bool := listPfx pat.data.reverse s.data.reverse

/-- JS `s.slice(1)` (drop the first character). -/
def sDrop1 (s : String) : String := ⟨s.data.drop 1⟩

/-- JS `s.slice(0, -1)` (drop the last character). -/
def sDropLast (s : String) : String := ⟨s.data.dropLast⟩

/-- Whitespace recognised by the `trim` model (space, tab, CR, LF). -/
def isWs (c : Char) : Bool := c == ' ' || c == '\t' || c == '\n' || c == '\r'

/-- JS `String.prototype.trim` (model; JS trims a slightly larger
whitespace set, the sources only meet the four listed characters). -/
def sTrim (s : String) : String :=
  ⟨((s.data.dropWhile isWs).reverse.dropWhile isWs).reverse⟩

/-- Does `sub` occur as a contiguous substring of `l`? -/
def listHasSub (sub : List Char) : List Char → Bool
  | [] => listPfx sub []
  | c :: cs => listPfx sub (c :: cs) || listHasSub sub cs

/-- JS `String.prototype.includes`. -/
def sHas (s sub : String) : Bool := listHasSub sub.data s.data

/-- Split `l` at the first occurrence of `pat`, returning the part
before the occurrence and the part after it. -/
def splitAtSub (pat : List Char) : List Char → Option (List Char × List Char)
  | [] => none
  | c :: cs =>
    if listPfx pat (c :: cs) then some ([], (c :: cs).drop pat.length)
    else (splitAtSub pat cs).map (fun p => (c :: p.1, p.2))

/-- Split a char list on every (non-overlapping, leftmost) occurrence of
`sep`, mirroring JS `String.prototype.split` with a non-empty string
separator.  `fuel` bounds the recursion; callers pass the list length. -/
def splitSubFuel (sep : List Char) : Nat → List Char → List Char → List (List Char)
  | 0, rest, acc => [(acc.reverse ++ rest)]
  | _ + 1, [], acc => [acc.reverse]
  | n + 1, c :: cs, acc =>
    if listPfx sep (c :: cs) then
      acc.reverse :: splitSubFuel sep n ((c :: cs).drop sep.length) []
    else
      splitSubFuel sep n cs (c :: acc)

/-- JS `s.split(sep)` for a non-empty separator `sep`. -/
def sSplit (s sep : String) : List String :=
  (splitSubFuel sep.data s.data.length s.data []).map (fun l => ⟨l⟩)

/-- Generic global scanner: repeatedly try `step` at the current
position; on a match emit the result and resume after the match, else
advance one character.  This mirrors the `matchAll` / `exec`-loop
pattern of the sources (every successful `step` consumes at least one
character there, so fuel `= length` is always sufficient). -/
def scanAllFuel (step : List Char → Option (α × List Char)) :
    Nat → List Char → List α
  | 0, _ => []
  | _ + 1, [] => []
  | n + 1, c :: cs =>
    match step (c :: cs) with
    | some (a, rest) => a :: scanAllFuel step n rest
    | none => scanAllFuel step n cs

/-- Run a scanner over a whole string. -/
def scanAll (step : List Char → Option (α × List Char)) (s : String) : List α :=
  scanAllFuel step s.data.length s.data

/-! ## Path helpers (`src/lib.ts`) -/

/-- `trimTrailingSlash` from `src/lib.ts`: the root path `"/"` is kept,
otherwise one trailing separator is removed when present. -/
def trimTrailingSlash (path : String) : String :=
  if path = "/" then path
  else if sEnds path "/" then sDropLast path else path

/-- `trimLeadingSlash` from `src/lib.ts`. -/
def trimLeadingSlash (path : String) : String :=
  if sStarts path "/" then sDrop1 path else path

/-- `addLeadingSlash` from `src/lib.ts`. -/
def addLeadingSlash (path : String) : String :=
  if sStarts path "/" then path else "/" ++ path

/-! ## Entry data model (`src/index.ts`) -/

/-- `Entry = FileEntry | DirectoryEntry`; directory entries carry a
`children` array (empty in flat-parse results, filled by traversal). -/
inductive Entry where
  | file (name path : String) (lastModified : Option Int)
  | dir (name path : String) (lastModified : Option Int) (children : List Entry)
deriving Repr

/-- The `path` field of an entry. -/
def Entry.path : Entry → String
  | .file _ p _ => p
  | .dir _ p _ _ => p

/-- The `name` field of an entry. -/
def Entry.name : Entry → String
  | .file n _ _ => n
  | .dir n _ _ _ => n

/-- The `lastModified` field of an entry. -/
def Entry.lastModified : Entry → Option Int
  | .file _ _ t => t
  | .dir _ _ t _ => t

/-- The `children` array of an entry (files have none). -/
def Entry.children : Entry → List Entry
  | .file _ _ _ => []
  | .dir _ _ _ cs => cs

/-- Is the entry a directory entry? -/
def Entry.isDir : Entry → Bool
  | .file _ _ _ => false
  | .dir _ _ _ _ => true

/-- `RootEntry`: the wrapper returned by `parse` in `src/index.ts`. -/
structure RootEntry where
  path : String
  children : List Entry
deriving Repr

/-! ## DOM model (external collaborator `node-html-parser`) -/

/-- Minimal DOM tree: element nodes with a tag, an attribute list and
children, and text nodes.  A `pre` element is represented with a single
raw text child holding its unparsed inner markup, matching the
behaviour of the HTML library that the sources rely on. -/
inductive Dom where
  | elem (tag : String) (attrs : List (String × String)) (children : List Dom)
  | text (s : String)
deriving Repr

mutual

/-- All nodes with the given tag, in document order (the node itself
included when it matches); model of `querySelectorAll(tag)`. -/
def qAll (tag : String) : Dom → List Dom
  | .text _ => []
  | .elem t a cs => (if t = tag then [Dom.elem t a cs] else []) ++ qAllL tag cs

/-- `qAll` over a child list. -/
def qAllL (tag : String) : List Dom → List Dom
  | [] => []
  | d :: ds => qAll tag d ++ qAllL tag ds

end

/-- Model of `querySelector(tag)`: the first match in document order. -/
def qSel (tag : String) (d : Dom) : Option Dom := (qAll tag d).head?

/-- Model of `getAttribute`: the first attribute with the given name. -/
def getAttr (d : Dom) (name : String) : Option String :=
  match d with
  | .text _ => none
  | .elem _ attrs _ => (attrs.find? (fun p => p.1 = name)).map (·.2)

mutual

/-- Model of `textContent`: concatenation of all descendant text. -/
def textOf : Dom → String
  | .text s => s
  | .elem _ _ cs => textOfL cs

/-- `textOf` over a child list. -/
def textOfL : List Dom → String
  | [] => ""
  | d :: ds => textOf d ++ textOfL ds

end

/-- Tags serialised without a closing tag (void elements). -/
def isVoidTag (t : String) : Bool :=
  t == "img" || t == "hr" || t == "br" || t == "input" || t == "meta" || t == "link"

/-- Serialise an attribute list as ` k="v" ...`. -/
def attrsStr : List (String × String) → String
  | [] => ""
  | (k, v) :: rest => " " ++ k ++ "=\"" ++ v ++ "\"" ++ attrsStr rest

mutual

/-- Serialise a node back to markup (model of the HTML library's
`toString`, which the sources reach through `innerHTML`). -/
def serializeD : Dom → String
  | .text s => s
  | .elem t a cs =>
    "<" ++ t ++ attrsStr a ++ ">" ++ serializeL cs ++
      (if isVoidTag t then "" else "</" ++ t ++ ">")

/-- Serialise a list of nodes. -/
def serializeL : List Dom → String
  | [] => ""
  | d :: ds => serializeD d ++ serializeL ds

end

/-- Model of `innerHTML`: the serialised children of a node. -/
def innerHTML : Dom → String
  | .text s => s
  | .elem _ _ cs => serializeL cs

/-! ## Regular-expression scanners

Each scanner embeds one concrete regular expression appearing in
`src/index.ts`, with the engine's leftmost-match semantics. -/

/-- A single-quote character (used by the `["']` character classes). -/
def squote : Char := Char.ofNat 39

/-- Is `c` one of the two quote characters of the class `["']`? -/
def isQuote (c : Char) : Bool := c == '"' || c == squote

/-- Take characters until a quote character, i.e. the `[^"']+` capture
(with its one-or-more requirement checked by the caller). -/
def takeNoQuote (l : List Char) : List Char × List Char :=
  (l.takeWhile (fun c => !isQuote c), l.dropWhile (fun c => !isQuote c))

/-- Scan forward for the literal `pat` with every skipped character
being distinct from `'>'`; at least `min` characters must be skipped.
Returns the remainder after `pat`.  This embeds `[^>]+pat` (with
`min = 1`) and `[^>]*pat` (with `min = 0`). -/
def gapTo (pat : List Char) : Nat → List Char → Option (List Char)
  | k, l =>
    if listPfx pat l ∧ k = 0 then some (l.drop pat.length)
    else
      match l with
      | [] => none
      | c :: cs => if c == '>' then none else gapTo pat (k - 1) cs

/-- Embedding of one match attempt of
`/<a[^>]+href=["']([^"']+)["'][^>]*>(.*?)<\/a>/` at the head of `l`,
returning `(href, linkText)` and the remainder after the match. -/
def matchLinkAt (l : List Char) : Option ((String × String) × List Char) := do
  let r1 ← if listPfx "<a".data l then some (l.drop 2) else none
  let r2 ← gapTo "href=".data 1 r1
  let r3 ← match r2 with
    | c :: cs => if isQuote c then some cs else none
    | [] => none
  let (href, r4) := takeNoQuote r3
  let _ ← if href.isEmpty then none else some ()
  let r5 ← match r4 with
    | c :: cs => if isQuote c then some cs else none
    | [] => none
  let r6 ← gapTo ">".data 0 r5
  let (txt, r7) ← splitAtSub "</a>".data r6
  return ((⟨href⟩, ⟨txt⟩), r7)

/-- All `(href, text)` pairs of the anchor regex, global scan
(`matchAll` in `parseF1`, first match only in `parseF2`). -/
def findLinks (s : String) : List (String × String) := scanAll matchLinkAt s

/-- First match of the anchor regex (used on the link cell in
`parseF2`). -/
def findLinkFirst : List Char → Option (String × String)
  | [] => none
  | c :: cs =>
    match matchLinkAt (c :: cs) with
    | some (p, _) => some p
    | none => findLinkFirst cs

/-- One match attempt of the opening-anchor pattern
`<a[^>]+href=["']([^"']+)["'][^>]*>` (no closing tag required),
returning the captured href.  This serves both the header-line test of
`parseF1` and the model of collecting anchor hrefs from the raw text of
a `pre` block in `inferFormat`. -/
def matchHrefOpenAt (l : List Char) : Option (String × List Char) := do
  let r1 ← if listPfx "<a".data l then some (l.drop 2) else none
  let r2 ← gapTo "href=".data 1 r1
  let r3 ← match r2 with
    | c :: cs => if isQuote c then some cs else none
    | [] => none
  let (href, r4) := takeNoQuote r3
  let _ ← if href.isEmpty then none else some ()
  let r5 ← match r4 with
    | c :: cs => if isQuote c then some cs else none
    | [] => none
  let r6 ← gapTo ">".data 0 r5
  return (⟨href⟩, r6)

/-- All hrefs of opening anchor tags in a raw string. -/
def findHrefOpens (s : String) : List String := scanAll matchHrefOpenAt s

/-- One match attempt of `/<img[^>]+alt=["'](\[[^\]]+\])["'][^>]*>/`
at the head of `l`, returning the captured bracketed alt marker. -/
def matchImgAt (l : List Char) : Option String := do
  let r1 ← if listPfx "<img".data l then some (l.drop 4) else none
  let r2 ← gapTo "alt=".data 1 r1
  let r3 ← match r2 with
    | c :: cs => if isQuote c then some cs else none
    | [] => none
  let r4 ← match r3 with
    | c :: cs => if c == '[' then some cs else none
    | [] => none
  let mid := r4.takeWhile (fun c => c != ']')
  let r5 := r4.dropWhile (fun c => c != ']')
  let _ ← if mid.isEmpty then none else some ()
  let r6 ← match r5 with
    | c :: cs => if c == ']' then some cs else none
    | [] => none
  let r7 ← match r6 with
    | c :: cs => if isQuote c then some cs else none
    | [] => none
  let _ ← gapTo ">".data 0 r7
  return ⟨'[' :: (mid ++ [']'])⟩

/-- First match of the img-alt regex in a string (`.match` returns the
first match only). -/
def findImgAltL : List Char → Option String
  | [] => none
  | c :: cs =>
    match matchImgAt (c :: cs) with
    | some a => some a
    | none => findImgAltL cs

/-- First bracketed img-alt marker in a string. -/
def findImgAlt (s : String) : Option String := findImgAltL s.data

/-- One match attempt of `/<td[^>]*>([\s\S]*?)<\/td>/` at the head of
`l`, returning the captured cell content and the remainder. -/
def matchTdAt (l : List Char) : Option (String × List Char) := do
  let r1 ← if listPfx "<td".data l then some (l.drop 3) else none
  let r2 ← gapTo ">".data 0 r1
  let (cell, r3) ← splitAtSub "</td>".data r2
  return (⟨cell⟩, r3)

/-- All table-cell contents of a row (global scan of the td regex). -/
def findTds (s : String) : List String := scanAll matchTdAt s

/-- JS `replace(/<[^>]+>/g, "")`: remove every `<`…`>` group with a
non-empty body.  Fuel-bounded like the other global scanners (each step
consumes at least one character, so fuel `= length` suffices). -/
def stripTagsFuel : Nat → List Char → List Char
  | 0, l => l
  | _ + 1, [] => []
  | n + 1, c :: cs =>
    if c == '<' then
      let mid := cs.takeWhile (fun x => x != '>')
      let rest := cs.dropWhile (fun x => x != '>')
      match rest with
      | '>' :: rest' =>
        if mid.isEmpty then c :: stripTagsFuel n cs else stripTagsFuel n rest'
      | _ => c :: stripTagsFuel n cs
    else c :: stripTagsFuel n cs

/-- Strip markup tags from a string. -/
def stripTags (s : String) : String := ⟨stripTagsFuel s.data.length s.data⟩

/-- First match of `/F=(\d)/`: the digit following the first `F=` that
is followed by a digit. -/
def findFdigit : List Char → Option Char
  | 'F' :: '=' :: c :: rest =>
    if c.isDigit then some c else findFdigit ('=' :: c :: rest)
  | _ :: rest => findFdigit rest
  | [] => none

/-- Try to read exactly `n` decimal digits at the head of `l`,
returning their value and the remainder. -/
def readDigits : Nat → List Char → Option (Nat × List Char)
  | 0, l => some (0, l)
  | n + 1, c :: cs =>
    if c.isDigit then
      (readDigits n cs).map (fun p => (p.1 + (c.toNat - 48) * 10 ^ n, p.2))
    else none
  | _ + 1, [] => none

/-- One match attempt of `/\d{4}-\d{2}-\d{2} \d{2}:\d{2}/` at the head
of `l`, returning `(year, month, day, hour, minute)`. -/
def matchDateAt (l : List Char) : Option (Nat × Nat × Nat × Nat × Nat) := do
  let (y, r1) ← readDigits 4 l
  let r2 ← match r1 with | '-' :: cs => some cs | _ => none
  let (mo, r3) ← readDigits 2 r2
  let r4 ← match r3 with | '-' :: cs => some cs | _ => none
  let (d, r5) ← readDigits 2 r4
  let r6 ← match r5 with | ' ' :: cs => some cs | _ => none
  let (h, r7) ← readDigits 2 r6
  let r8 ← match r7 with | ':' :: cs => some cs | _ => none
  let (mi, _) ← readDigits 2 r8
  return (y, mo, d, h, mi)

/-- First match of the date pattern anywhere in the list. -/
def findDateL : List Char → Option (Nat × Nat × Nat × Nat × Nat)
  | [] => none
  | c :: cs =>
    match matchDateAt (c :: cs) with
    | some v => some v
    | none => findDateL cs

/-- First `YYYY-MM-DD HH:MM` occurrence in a string. -/
def findDate (s : String) : Option (Nat × Nat × Nat × Nat × Nat) :=
  findDateL s.data

/-! ## `decodeURIComponent` (external collaborator, ECMA-262)

`decodeURIComponent` throws a `URIError` on a malformed escape
sequence; this is modelled by `none`.  Consecutive `%XX` escapes are
decoded as a UTF-8 sequence (with overlong encodings, surrogate code
points and out-of-range values rejected, as the ECMA algorithm does);
all other characters pass through unchanged. -/

/-- Value of a hexadecimal digit. -/
def hexVal (c : Char) : Option Nat :=
  if '0' ≤ c ∧ c ≤ '9' then some (c.toNat - 48)
  else if 'a' ≤ c ∧ c ≤ 'f' then some (c.toNat - 87)
  else if 'A' ≤ c ∧ c ≤ 'F' then some (c.toNat - 70)
  else none

/-- Read one `%XX` escape, returning the byte value and the remainder. -/
def readEscByte : List Char → Option (Nat × List Char)
  | '%' :: a :: b :: rest => do
    let ha ← hexVal a
    let hb ← hexVal b
    return (ha * 16 + hb, rest)
  | _ => none

/-- Read `n` UTF-8 continuation bytes (each written as a `%XX` escape
with value in `[0x80, 0xBF]`), accumulating the code point. -/
def readContBytes : Nat → Nat → List Char → Option (Nat × List Char)
  | 0, acc, l => some (acc, l)
  | n + 1, acc, l => do
    let (b, rest) ← readEscByte l
    if 0x80 ≤ b ∧ b ≤ 0xBF then readContBytes n (acc * 64 + (b - 0x80)) rest
    else none

/-- Fuel-bounded core of the `decodeURIComponent` model. -/
def dUriFuel : Nat → List Char → Option (List Char)
  | 0, l => some l
  | _ + 1, [] => some []
  | n + 1, '%' :: rest => do
    let (b0, r1) ← readEscByte ('%' :: rest)
    if b0 < 0x80 then
      (dUriFuel n r1).map (fun t => Char.ofNat b0 :: t)
    else if 0xC2 ≤ b0 ∧ b0 ≤ 0xDF then do
      let (cp, r2) ← readContBytes 1 (b0 - 0xC0) r1
      (dUriFuel n r2).map (fun t => Char.ofNat cp :: t)
    else if 0xE0 ≤ b0 ∧ b0 ≤ 0xEF then do
      let (cp, r2) ← readContBytes 2 (b0 - 0xE0) r1
      if 0x800 ≤ cp ∧ ¬(0xD800 ≤ cp ∧ cp ≤ 0xDFFF) then
        (dUriFuel n r2).map (fun t => Char.ofNat cp :: t)
      else none
    else if 0xF0 ≤ b0 ∧ b0 ≤ 0xF4 then do
      let (cp, r2) ← readContBytes 3 (b0 - 0xF0) r1
      if 0x10000 ≤ cp ∧ cp ≤ 0x10FFFF then
        (dUriFuel n r2).map (fun t => Char.ofNat cp :: t)
      else none
    else none
  | n + 1, c :: rest => (dUriFuel n rest).map (fun t => c :: t)

/-- Model of `decodeURIComponent`; `none` models a thrown `URIError`. -/
def decodeURIComponent (s : String) : Option String :=
  (dUriFuel s.data.length s.data).map (fun l => ⟨l⟩)

/-! ## `Date` parsing (external collaborator)

`parseF1` builds the string `"YYYY-MM-DDTHH:MM:00Z"` and hands it to
`new Date(...)`; ECMA-262 ISO parsing accepts it exactly when the
components form a valid calendar date (hour 24 with minute 0 also
allowed), interpreted in UTC.  `getTime` then yields epoch
milliseconds. -/

/-- Is `y` a leap year (proleptic Gregorian)? -/
def isLeap (y : Nat) : Bool :=
  (y % 4 == 0 && y % 100 != 0) || y % 400 == 0

/-- Number of days in month `m` of year `y`. -/
def daysInMonth (y m : Nat) : Nat :=
  if m = 2 then (if isLeap y then 29 else 28)
  else if m = 4 ∨ m = 6 ∨ m = 9 ∨ m = 11 then 30
  else 31

/-- Days from the epoch 1970-01-01 to the civil date `y-m-d`
(Hinnant's `days_from_civil`; all divisions are exact or on
non-negative operands for the argument ranges used here). -/
def daysFromCivil (y m d : Int) : Int :=
  let y' := if m ≤ 2 then y - 1 else y
  let era := (if 0 ≤ y' then y' else y' - 399) / 400
  let yoe := y' - era * 400
  let mp := if 2 < m then m - 3 else m + 9
  let doy := (153 * mp + 2) / 5 + d - 1
  let doe := yoe * 365 + yoe / 4 - yoe / 100 + doy
  era * 146097 + doe - 719468

/-- Epoch milliseconds of `Date.parse("YYYY-MM-DDTHH:MM:00Z")`;
`none` models an invalid date (`getTime()` returning `NaN`). -/
def jsDateIso (c : Nat × Nat × Nat × Nat × Nat) : Option Int :=
  let (y, mo, d, h, mi) := c
  if 1 ≤ mo ∧ mo ≤ 12 ∧ 1 ≤ d ∧ d ≤ daysInMonth y mo then
    if h ≤ 23 ∧ mi ≤ 59 then
      some (daysFromCivil y mo d * 86400000 + h * 3600000 + mi * 60000)
    else if h = 24 ∧ mi = 0 then
      some ((daysFromCivil y mo d + 1) * 86400000)
    else none
  else none

/-- Model of `new Date(text).getTime()` on the free-form text of a
table date cell (`parseF2`).  The Apache table layout emits
`YYYY-MM-DD HH:MM`; the model accepts exactly that shape (interpreted
in UTC, assuming a UTC environment) and reports `NaN` (`none`)
otherwise.  This is a model of an implementation-defined collaborator;
no claim below depends on its value on other shapes. -/
def jsDateLoose (s : String) : Option Int :=
  match matchDateAt s.data with
  | some (y, mo, d, h, mi) =>
    if s.data.length = 16 then jsDateIso (y, mo, d, h, mi) else none
  | none => none

/-- JS `str.split("/").pop() || fallback` used by the truncated-name
recovery of `parseF1`: the last `/`-separated segment, or the fallback
when that segment is empty. -/
def lastSegOr (s fallback : String) : String :=
  match (sSplit s "/").getLast? with
  | some seg => if seg = "" then fallback else seg
  | none => fallback

/-! ## `inferFormat` (`src/index.ts`) -/

/-- The sort-link hrefs `inferFormat` scans: when a `pre` element is
present its raw content is re-parsed and the anchor hrefs are taken
from there (the HTML library does not parse inside `pre`), otherwise
the live anchors of the document are used; in both cases only hrefs
starting with `"?"` are kept. -/
def sortHrefs (d : Dom) : List String :=
  match qSel "pre" d with
  | some pre => (findHrefOpens (textOf pre)).filter (fun h => sStarts h "?")
  | none =>
    ((qAll "a" d).filterMap (fun a => getAttr a "href")).filter
      (fun h => sStarts h "?")

/-- `inferFormat` from `src/index.ts`: the first sort href that matches
`/F=(\d)/` decides the format tag; otherwise the result is `"F0"`
(there is no structural fallback in this function). -/
def inferFormat (d : Dom) : String :=
  match (sortHrefs d).findSome? (fun h => findFdigit h.data) with
  | some c => "F" ++ ⟨[c]⟩
  | none => "F0"

/-! ## `parseF0` (`src/index.ts`) -/

/-- Processing of one `li` element in `parseF0`; `none` means the item
contributes no entry. -/
def processLiF0 (li : Dom) : Option Entry :=
  match qSel "a" li with
  | none => none
  | some a =>
    let href := (getAttr a "href").getD ""
    let name := sTrim (textOf a)
    let isDirectory := sEnds href "/"
    if name = "Parent Directory" then none
    else if isDirectory then some (.dir (sDropLast name) href none [])
    else some (.file name href none)

/-- `parseF0` from `src/index.ts`: the `li` items of the first `ul`. -/
def parseF0 (d : Dom) : List Entry :=
  match qSel "ul" d with
  | none => []
  | some ul => (qAll "li" ul).filterMap processLiF0

/-! ## `parseF1` (`src/index.ts`) -/

/-- The date extracted from an F1 line: the first `YYYY-MM-DD HH:MM`
match, parsed via `new Date("...T...:00Z")`; an invalid date is
dropped. -/
def f1Date (line : String) : Option Int :=
  match findDate line with
  | some c => jsDateIso c
  | none => none

/-- Does a line contain an anchor whose href does not start with `?`
(the negative-lookahead test of the header-line skip)? -/
def hasNonSortLink (line : String) : Bool :=
  (findHrefOpens line).any (fun h => !sStarts h "?")

/-- The directory/file classification of an F1 line's link: the line's
icon marker decides when present (`[DIR]` means directory), otherwise a
trailing separator on the href does. -/
def f1IsDir (line href : String) : Bool :=
  match findImgAlt line with
  | some imgAlt => imgAlt == "[DIR]"
  | none => sEnds href "/"

/-- The cleaned-up display name of an F1 link (trailing separator
removed from directory names). -/
def f1Name1 (line href t : String) : String :=
  if f1IsDir line href && sEnds (sTrim t) "/" then sDropLast (sTrim t)
  else sTrim t

/-- Build the entry an F1 link produces. -/
def f1Mk (line href nm : String) : Entry :=
  if f1IsDir line href then .dir nm href (f1Date line) []
  else .file nm href (f1Date line)

/-- Processing of one anchor match on an F1 line.  The outer `Option`
models an escaping exception (`decodeURIComponent` throwing), the
inner one a skipped link. -/
def f1Link (line : String) (ht : String × String) : Option (Option Entry) :=
  let href := ht.1
  let linkText := sTrim ht.2
  if sStarts href "?" then some none
  else if linkText = "Parent Directory" ∨ href = "/" then some none
  else
    let name1 := f1Name1 line href ht.2
    if sEnds name1 "..>" then
      match decodeURIComponent href with
      | none => none
      | some decodedHref =>
        let name2 :=
          if decodedHref ≠ href then
            lastSegOr
              (if sEnds decodedHref "/" then sDropLast decodedHref else decodedHref)
              name1
          else name1
        some (some (f1Mk line href name2))
    else some (some (f1Mk line href name1))

/-- Sequence a throwing, list-producing computation over a list,
concatenating the results (an exception aborts the whole run, exactly
like a `throw` escaping the source's `for` loops). -/
def optConcatMap (f : α → Option (List β)) : List α → Option (List β)
  | [] => some []
  | a :: as =>
    match f a with
    | none => none
    | some bs =>
      match optConcatMap f as with
      | none => none
      | some rest => some (bs ++ rest)

/-- Processing of one line of a `pre` block in `parseF1`. -/
def f1Line (line : String) : Option (List Entry) :=
  if sHas line "<hr>" ∨ sTrim line = "" then some []
  else if sHas line "Last modified" ∧ sHas line "?C=" ∧ ¬hasNonSortLink line then
    some []
  else
    optConcatMap (fun ht => (f1Link line ht).map (fun o => o.toList))
      (findLinks line)

/-- `parseF1` from `src/index.ts`: every `pre` block's raw content is
split into lines and scanned for anchors; `none` models an escaping
exception. -/
def parseF1 (d : Dom) : Option (List Entry) :=
  optConcatMap (fun pre => optConcatMap f1Line (sSplit (textOf pre) "\n"))
    (qAll "pre" d)

/-! ## `parseF2` (`src/index.ts`) -/

/-- The timestamp an F2 row's date cell yields: a non-breaking-space
placeholder or an empty cell means no timestamp; otherwise the visible
text is handed to `new Date(...)` and an invalid date is dropped. -/
def rowDateF2 (rowContent : String) : Option Int :=
  let dateText := sTrim (stripTags ((findTds rowContent).getD 2 ""))
  if dateText ≠ "" ∧ dateText ≠ "&nbsp;" then jsDateLoose dateText else none

/-- Processing of one table row (its `innerHTML`) in `parseF2`;
`none` means the row is skipped. -/
def processRowF2 (rowContent : String) : Option Entry :=
  if sHas rowContent "<th" ∨ sHas rowContent "<hr" then none
  else
    let cells := findTds rowContent
    if cells.length < 3 then none
    else
      match findImgAlt (cells.getD 0 "") with
      | none => none
      | some imgAlt =>
        if imgAlt ≠ "[DIR]" ∧ imgAlt ≠ "[TXT]" ∧ imgAlt = "[PARENTDIR]" then none
        else if imgAlt ≠ "[DIR]" ∧ imgAlt ≠ "[TXT]" ∧ ¬sStarts imgAlt "[" then none
        else
          match findLinkFirst (cells.getD 1 "").data with
          | none => none
          | some (href, nameRaw) =>
            let name := sTrim nameRaw
            if name = "Parent Directory" then none
            else
              let lastModified := rowDateF2 rowContent
              if imgAlt = "[DIR]" ∨ sEnds href "/" then
                some (.dir name href lastModified [])
              else some (.file name href lastModified)

/-- `parseF2` from `src/index.ts`: the rows of the first table. -/
def parseF2 (d : Dom) : List Entry :=
  match qSel "table" d with
  | none => []
  | some table => (qAll "tr" table).filterMap (fun row => processRowF2 (innerHTML row))

/-! ## `parse` (`src/index.ts`) -/

/-- The flat entry list `parse` computes for a resolved format tag
(the three sequential `if` blocks of the source); `none` models an
escaping exception, an unknown tag leaves the list empty. -/
def entriesFor (d : Dom) (fmt : String) : Option (List Entry) :=
  if fmt = "F0" then some (parseF0 d)
  else if fmt = "F1" then parseF1 d
  else if fmt = "F2" then some (parseF2 d)
  else some []

/-- `parse` from `src/index.ts` over an already-parsed document (the
HTML library's string-to-document step is total, and its `null` guard
in the source is unreachable).  `none` models an escaping exception. -/
def parse (d : Dom) (format : Option String) : Option RootEntry :=
  let titleText := ((qSel "title" d).map textOf).getD ""
  let rootPath := ((sSplit titleText "Index of ").get? 1).getD "/"
  let fmt := format.getD (inferFormat d)
  (entriesFor d fmt).map (fun es => ⟨rootPath, es⟩)

/-! ## `traverse` (`src/traverse.ts`)

The HTTP transport is an external collaborator: it is modelled by a
finite page table; a URL outside the table models a network failure or
a non-success response (both throw inside the `try` block of the
source and are absorbed by its `catch`).  The body of a successful
fetch is the already-parsed document.  Exceptions thrown anywhere in
the `try` block (fetching, parsing, callbacks) are absorbed into an
empty result list by the source's `catch`; the entries handed to the
`onFile`/`onDirectory` callbacks are the very objects returned, so the
callbacks are not modelled separately.  The unbounded recursion of the
source is bounded by explicit fuel (the source has no cycle guard; all
theorems hold for every fuel value or quantify over it). -/

/-- Traversal context: the page table of the fetch collaborator and
the format option passed to every `parse` call. -/
structure Ctx where
  pages : List (String × Dom)
  format : Option String

/-- Fetch model: `none` is a network failure or non-success response. -/
def fetchDom (c : Ctx) (u : String) : Option Dom :=
  (c.pages.find? (fun p => p.1 = u)).map (·.2)

/-- The entry list the traversal obtains from `parse` for a fetched
body (the facade's flat list; `none` models a thrown exception). -/
def parsedEntries (c : Ctx) (d : Dom) : Option (List Entry) :=
  (parse d c.format).map (·.children)

/-- Child-URL joining of `traverseInternal` (lines 103–105 of
`src/traverse.ts`). -/
def joinUrl (rootUrl path : String) : String :=
  if sEnds rootUrl "/" then
    rootUrl ++ (if sStarts path "/" then sDrop1 path else path)
  else
    rootUrl ++ (if sStarts path "/" then path else "/" ++ path)

/-- Accumulated-path computation of `traverseInternal` (lines 87–91 of
`src/traverse.ts`). -/
def fullPathOf (pathPrefix p : String) : String :=
  trimTrailingSlash (trimLeadingSlash
    (if pathPrefix ≠ "" then pathPrefix ++ "/" ++ p else p))

/-- `traverseInternal` from `src/traverse.ts`: fetch, parse, map the
per-entry work over the parsed entries (files re-pathed; directories
re-pathed, their name trailing-slash-trimmed, and recursed into); any
failure yields `[]`. -/
def traverseInternal (c : Ctx) : Nat → String → String → List Entry
  | 0, _, _ => []
  | n + 1, rootUrl, pathPrefix =>
    match fetchDom c rootUrl with
    | none => []
    | some dom =>
      match parsedEntries c dom with
      | none => []
      | some rootEntries =>
        rootEntries.map (fun entry =>
          let fullPath := fullPathOf pathPrefix entry.path
          match entry with
          | .file nm _ lm => .file nm fullPath lm
          | .dir nm p lm _ =>
            let childUrl := joinUrl rootUrl p
            let child := traverseInternal c n childUrl fullPath
            .dir (trimTrailingSlash nm) fullPath lm child)

/-- The per-entry body of the `rootEntries.map` in `traverseInternal`,
as a named function (for stating theorems about single entries). -/
def traverseStep (c : Ctx) (fuel : Nat) (rootUrl pathPrefix : String)
    (entry : Entry) : Entry :=
  let fullPath := fullPathOf pathPrefix entry.path
  match entry with
  | .file nm _ lm => .file nm fullPath lm
  | .dir nm p lm _ =>
    let childUrl := joinUrl rootUrl p
    let child := traverseInternal c fuel childUrl fullPath
    .dir (trimTrailingSlash nm) fullPath lm child

/-- `traverse` from `src/traverse.ts` (fuel-bounded). -/
def traverse (c : Ctx) (fuel : Nat) (rootUrl : String) : List Entry :=
  traverseInternal c fuel rootUrl ""

/-- Does a path have neither a leading nor a trailing separator? -/
def pathClean (s : String) : Bool := !sStarts s "/" && !sEnds s "/"

mutual

/-- Does an entry, together with all its descendants, have clean
paths? -/
def entryPathsClean : Entry → Bool
  | .file _ p _ => pathClean p
  | .dir _ p _ cs => pathClean p && allPathsClean cs

/-- Does every entry of a traversal result, at every depth, have a
clean path? -/
def allPathsClean : List Entry → Bool
  | [] => true
  | e :: es => entryPathsClean e && allPathsClean es

end

/-- A href that creates no doubled separator under the traversal's
single-slash trimming: it neither starts nor ends with `"//"` and is
not the bare root `"/"`. -/
def hrefTame (h : String) : Bool :=
  !sStarts h "//" && !sEnds h "//" && !(h == "/")

/-- Does every page of the context parse to entries with tame hrefs
(the pages a traversal can ever see)? -/
def ctxTame (c : Ctx) : Bool :=
  c.pages.all (fun p =>
    match parsedEntries c p.2 with
    | none => true
    | some es => es.all (fun e => hrefTame e.path))

/-! ## Spec-modelled definitions -/

/-- Modelled from the spec: the structural-fallback format inference
of spec §4.1 ("if one [sort anchor] encodes a `F=<digit>` query
parameter, trust it verbatim ...; otherwise ... a preformatted-text
block implies the preformatted layout; else ... a table implies the
table layout; otherwise default to the list layout", with the §4.1
edge case that sort anchors are also searched in the raw text of a
`pre` block).  Used to compare the claimed priority order with the
code's `inferFormat`. -/
def inferFormatSpec (d : Dom) : String :=
  let hrefs :=
    (((qAll "a" d).filterMap (fun a => getAttr a "href")) ++
        ((qAll "pre" d).map textOf).flatMap findHrefOpens).filter
      (fun h => sStarts h "?")
  match hrefs.findSome? (fun h => findFdigit h.data) with
  | some c => "F" ++ ⟨[c]⟩
  | none =>
    if (qAll "pre" d).isEmpty = false then "F1"
    else if (qAll "table" d).isEmpty = false then "F2"
    else "F0"

/-- Modelled from the spec: the base-path normalisation of the v3
parse facade (spec §4.5), which is absent from `src/` (only its tests
and the `src/lib.ts` helpers are present).  Every entry path is
rewritten to `normalize(basePath) + "/" + relativePath`, where
normalisation ensures exactly one leading and no trailing separator. -/
def normalizeBasePath (b : String) : String :=
  addLeadingSlash (trimTrailingSlash b)

/-- Modelled from the spec: rewrite one entry's path under a base
path. -/
def entryWithBase (b : String) (e : Entry) : Entry :=
  match e with
  | .file nm p lm => .file nm (normalizeBasePath b ++ "/" ++ trimLeadingSlash p) lm
  | .dir nm p lm cs => .dir nm (normalizeBasePath b ++ "/" ++ trimLeadingSlash p) lm cs

/-- Modelled from the spec: apply a base path to a parse result. -/
def applyBasePath (b : String) (es : List Entry) : List Entry :=
  es.map (entryWithBase b)

/-! ## Concrete documents and contexts used in the theorems -/

/-- A document root holding the given children. -/
def mkRoot (cs : List Dom) : Dom := .elem "#document" [] cs

/-- A listing page whose body is one `pre` block with raw content
`raw` (the F1 layout). -/
def mkPre (raw : String) : Dom := mkRoot [.elem "pre" [] [.text raw]]

/-- A list item holding a single anchor (the F0 layout rows). -/
def mkLi (href txt : String) : Dom :=
  .elem "li" [] [.elem "a" [("href", href)] [.text txt]]

/-- A listing page whose body is one `ul` (the F0 layout). -/
def mkUl (lis : List Dom) : Dom := mkRoot [.elem "ul" [] lis]

/-- An icon cell of the F2 table layout. -/
def tdIcon (alt : String) : Dom :=
  .elem "td" [] [.elem "img" [("src", "/icons/x.gif"), ("alt", alt)] []]

/-- A link cell of the F2 table layout. -/
def tdLink (href txt : String) : Dom :=
  .elem "td" [] [.elem "a" [("href", href)] [.text txt]]

/-- A date cell of the F2 table layout. -/
def tdDate (t : String) : Dom := .elem "td" [] [.text t]

/-- A data row of the F2 table layout. -/
def mkRow (alt href txt date : String) : Dom :=
  .elem "tr" [] [tdIcon alt, tdLink href txt, tdDate date]

/-- A listing page whose body is one table (the F2 layout). -/
def mkTable (rows : List Dom) : Dom := mkRoot [.elem "table" [] rows]

/-- F2 page with one directory row whose link text carries the
trailing separator Apache emits for directories. -/
def domDirSlash : Dom := mkTable [mkRow "[DIR]" "subdir/" "subdir/" "&nbsp;"]

/-- F2 page with one row carrying the unrecognised (but bracketed)
icon marker `[IMG]`. -/
def domIcoRow : Dom := mkTable [mkRow "[IMG]" "photo.png" "photo.png" "&nbsp;"]

/-- A `pre` page with an anchor but no sort links (for format
inference: no `F=` parameter anywhere, `pre` structurally present). -/
def domPreNoSort : Dom := mkPre "<a href=\"sub/\">sub/</a>"

/-- A `pre` page whose sort link carries `F=2`. -/
def domPreF2 : Dom := mkPre "<a href=\"?C=N;O=D;F=2\">Name</a>"

/-- F1 page whose second line has a truncated link text and an href
containing a malformed percent escape (`%` before non-hex digits). -/
def domThrow : Dom :=
  mkPre "<a href=\"?C=N;O=A;F=1\">Name</a>\n<a href=\"100%.txt\">n..></a>"

/-- F0 page containing only the parent-directory link. -/
def domF0Parent : Dom := mkUl [mkLi "/" " Parent Directory"]

/-- F1 page containing only the parent-directory link. -/
def domF1Parent : Dom :=
  mkPre "<img src=\"/icons/back.gif\" alt=\"[PARENTDIR]\"> <a href=\"/\">Parent Directory</a>       -"

/-- F2 page containing only the parent-directory row. -/
def domF2Parent : Dom := mkTable [mkRow "[PARENTDIR]" "/" "Parent Directory" "&nbsp;"]

/-- F1 page whose lone entry line carries a day-month-name-year date. -/
def domF1Dmy : Dom :=
  mkPre "<a href=\"old.txt\">old.txt</a>             02-Jan-2020 15:30  1k"

/-- F1 page whose lone entry line carries an ISO date. -/
def domF1Iso : Dom :=
  mkPre "<a href=\"new.txt\">new.txt</a>             2023-06-15 12:30  1k"

/-- F1 page with a truncated link text whose href contains no percent
escape at all. -/
def domF1TruncPlain : Dom :=
  mkPre "<a href=\"longfilename.txt\">longfilena..></a>"

/-- F1 page with a truncated link text whose href percent-decodes to a
different string. -/
def domF1TruncEsc : Dom :=
  mkPre "<a href=\"sp%20name.txt\">sp%20nam..></a>"

/-- F0 page with one file and one subdirectory (sibling scenario). -/
def domF0Sib : Dom :=
  mkRoot [.elem "title" [] [.text "Index of /files"],
    .elem "ul" [] [mkLi "ok.txt" "ok.txt", mkLi "bad/" "bad/"]]

/-- Context for the failure-containment scenario: only the root URL
resolves; the subdirectory URL fails. -/
def ctxSib : Ctx := ⟨[("http://h/", domF0Sib)], some "F0"⟩

/-- F0 page whose lone href carries a doubled leading separator. -/
def domF0DoubleSlash : Dom := mkUl [mkLi "//a" "x"]

/-- Context whose root page contains the doubled-separator href. -/
def ctxSlash : Ctx := ⟨[("u", domF0DoubleSlash)], some "F0"⟩

/-- F0 page with tame hrefs (one file, one directory). -/
def domF0Tame : Dom := mkUl [mkLi "docs/" "docs/", mkLi "a.txt" "a.txt"]

/-- Context whose only page has tame hrefs. -/
def ctxTameEx : Ctx := ⟨[("u", domF0Tame)], some "F0"⟩

/-- A small parse result used to witness the base-path properties. -/
def esBase : List Entry :=
  [.file "ReadMe.txt" "ReadMe.txt" none, .dir "level2" "level2" none []]

/-! ## Helper lemmas -/

theorem findSome?_none_of_all {f : α → Option β} :
    ∀ {l : List α}, (∀ x ∈ l, f x = none) → l.findSome? f = none := by
  intro l h
  induction l with
  | nil => rfl
  | cons a as ih =>
    have ha := h a (List.mem_cons_self a as)
    rw [List.findSome?]
    rw [ha]
    exact ih (fun x hx => h x (List.mem_cons_of_mem a hx))

theorem lpfx_one {a : Char} {l : List Char} :
    listPfx [a] l = true ↔ ∃ t, l = a :: t := by
  cases l with
  | nil => simp [listPfx]
  | cons c cs =>
    simp only [listPfx, Bool.and_eq_true, beq_iff_eq]
    constructor
    · rintro ⟨h, -⟩; exact ⟨cs, by rw [h]⟩
    · rintro ⟨t, ht⟩
      cases ht
      exact ⟨rfl, trivial⟩

theorem lpfx_two {a b : Char} {l : List Char} :
    listPfx [a, b] l = true ↔ ∃ t, l = a :: b :: t := by
  cases l with
  | nil => simp [listPfx]
  | cons c cs =>
    cases cs with
    | nil => simp [listPfx]
    | cons c' cs' =>
      simp only [listPfx, Bool.and_eq_true, beq_iff_eq]
      constructor
      · rintro ⟨h1, h2, -⟩; exact ⟨cs', by rw [h1, h2]⟩
      · rintro ⟨t, ht⟩
        cases ht
        exact ⟨rfl, rfl, trivial⟩

theorem sdata_append (a b : String) : (a ++ b).data = a.data ++ b.data := by
  cases a; cases b; rfl

theorem sStarts_slash (s : String) : sStarts s "/" = listPfx ['/'] s.data := rfl

theorem sEnds_slash (s : String) : sEnds s "/" = listPfx ['/'] s.data.reverse := rfl

theorem sStarts_dslash (s : String) :
    sStarts s "//" = listPfx ['/', '/'] s.data := rfl

theorem sEnds_dslash (s : String) :
    sEnds s "//" = listPfx ['/', '/'] s.data.reverse := rfl

/-! ## Claim C2: format inference priority -/

/-- C2 counterexample: the claimed priority order ("otherwise,
presence of a preformatted block implies the preformatted layout") is
false for `inferFormat`.  On a document with a `pre` block whose
anchors carry no `F=` parameter, the code returns `"F0"` while the
claimed priority (embodied by `inferFormatSpec`, which follows the
spec's words) demands `"F1"`. -/
theorem c2_counterexample :
    inferFormat domPreNoSort = "F0" ∧ inferFormatSpec domPreNoSort = "F1" ∧
      ("F0" : String) ≠ "F1" :=
  ⟨rfl, rfl, by decide⟩

/-- C2 (amended): `inferFormat` trusts the first `F=<digit>` parameter
found among the sort hrefs (collected from the raw text of the `pre`
block when one is present, else from the live anchors) and returns
`"F0"` whenever no sort href encodes such a parameter — there is no
structural pre/table fallback; a sort link with `F=2` still decides
the table layout when a `pre` block is structurally present, and the
function never throws (it is total). -/
theorem c2_format_inference :
    (∀ d : Dom, (∀ h ∈ sortHrefs d, findFdigit h.data = none) →
      inferFormat d = "F0") ∧
    (∀ d : Dom, ∀ c : Char,
      (sortHrefs d).findSome? (fun h => findFdigit h.data) = some c →
      inferFormat d = "F" ++ ⟨[c]⟩) ∧
    inferFormat domPreF2 = "F2" := by
  refine ⟨?_, ?_, rfl⟩
  · intro d h
    unfold inferFormat
    rw [findSome?_none_of_all h]
  · intro d c h
    unfold inferFormat
    rw [h]

/-- C2 witness: the amended inference theorem applied at the two
concrete documents. -/
theorem c2_format_inference_witness :
    inferFormat domPreNoSort = "F0" ∧
      inferFormat domPreF2 = "F" ++ ⟨['2']⟩ :=
  ⟨c2_format_inference.1 domPreNoSort (by decide),
   c2_format_inference.2.1 domPreF2 '2' (by decide)⟩

/-! ## Claim C3: entry names and trailing separators -/

/-- C3 (code bug): evaluating the table-layout extractor at the
failing input.  A standard Apache F2 row renders a directory's link
text with a trailing separator; `parseF2` copies that text verbatim
into the entry name, so the produced name still ends with `"/"`,
contradicting the documented invariant (the repository's README shows
the same row shape producing the stripped name). -/
theorem c3_name_trailing_slash :
    parseF2 domDirSlash = [.dir "subdir/" "subdir/" none []] ∧
      sEnds (Entry.name (.dir "subdir/" "subdir/" none [])) "/" = true :=
  ⟨rfl, by decide⟩

/-! ## Claim C4: parse never throws / degrades to empty -/

/-- C4 counterexample: `parse` can throw.  On an F1 page whose
truncated-name recovery meets an href with a malformed percent escape
(`"100%.txt"`), the uncaught `decodeURIComponent` call raises a
`URIError` that escapes `parse` (modelled by `none`). -/
theorem c4_counterexample : parse domThrow none = none := rfl

theorem optConcatMap_none_mem {f : α → Option (List β)} :
    ∀ {l : List α}, optConcatMap f l = none → ∃ a ∈ l, f a = none := by
  intro l h
  induction l with
  | nil => exact absurd h (by simp [optConcatMap])
  | cons a as ih =>
    rw [optConcatMap] at h
    cases hfa : f a with
    | none => exact ⟨a, List.mem_cons_self a as, hfa⟩
    | some bs =>
      rw [hfa] at h
      cases hrec : optConcatMap f as with
      | none =>
        obtain ⟨x, hx, hfx⟩ := ih hrec
        exact ⟨x, List.mem_cons_of_mem a hx, hfx⟩
      | some rest =>
        rw [hrec] at h
        exact absurd h (by simp)

/-- C4 (amended): `parse` never throws except through the
preformatted-layout extractor's truncated-name recovery: a link throws
exactly when it survives the sort/parent skips, its cleaned display
name ends with the ellipsis marker `..>`, and its href fails to
percent-decode (`decodeURIComponent` raises); any exception escaping
`parse`, on any markup and any format argument, traces to such a link
on some line of a `pre` block; with an explicit `"F0"` or `"F2"`
format no exception is possible; and on markup with no recognisable
structure (no `ul`, no `pre`, no table — in particular empty markup)
it returns an empty entry list for every format argument, without
throwing. -/
theorem c4_parse_degrades :
    (∀ d : Dom, parse d (some "F0") ≠ none ∧ parse d (some "F2") ≠ none) ∧
    (∀ line h t : String, f1Link line (h, t) = none ↔
      sStarts h "?" = false ∧ ¬(sTrim t = "Parent Directory" ∨ h = "/") ∧
        sEnds (f1Name1 line h t) "..>" = true ∧ decodeURIComponent h = none) ∧
    (∀ (d : Dom) (fmt : Option String), parse d fmt = none →
      ∃ pre ∈ qAll "pre" d, ∃ line ∈ sSplit (textOf pre) "\n",
        ∃ ht ∈ findLinks line, f1Link line ht = none) ∧
    (∀ (d : Dom) (fmt : Option String),
      qAll "ul" d = [] → qAll "pre" d = [] → qAll "table" d = [] →
      ∃ r : RootEntry, parse d fmt = some r ∧ r.children = []) := by
  refine ⟨?_, ?_, ?_, ?_⟩
  · intro d
    constructor <;> simp [parse, entriesFor]
  · intro line h t
    unfold f1Link
    dsimp only
    by_cases hq : sStarts h "?" = true
    · simp [hq]
    · rw [if_neg hq]
      simp only [Bool.not_eq_true] at hq
      by_cases hp : sTrim t = "Parent Directory" ∨ h = "/"
      · simp [hp]
      · rw [if_neg hp]
        by_cases htr : sEnds (f1Name1 line h t) "..>" = true
        · rw [if_pos htr]
          cases hdec : decodeURIComponent h with
          | none => simp [hq, hp, htr, hdec]
          | some d => simp [hdec]
        · rw [if_neg htr]
          simp [htr]
  · intro d fmt h
    unfold parse at h
    dsimp only at h
    rw [Option.map_eq_none'] at h
    unfold entriesFor at h
    by_cases h0 : fmt.getD (inferFormat d) = "F0"
    · rw [if_pos h0] at h
      exact absurd h (by simp)
    · rw [if_neg h0] at h
      by_cases h1 : fmt.getD (inferFormat d) = "F1"
      · rw [if_pos h1] at h
        unfold parseF1 at h
        obtain ⟨pre, hpre, hpl⟩ := optConcatMap_none_mem h
        obtain ⟨line, hline, hll⟩ := optConcatMap_none_mem hpl
        unfold f1Line at hll
        by_cases hskip1 : sHas line "<hr>" ∨ sTrim line = ""
        · rw [if_pos hskip1] at hll
          exact absurd hll (by simp)
        · rw [if_neg hskip1] at hll
          by_cases hskip2 : sHas line "Last modified" ∧ sHas line "?C=" ∧
              ¬hasNonSortLink line
          · rw [if_pos hskip2] at hll
            exact absurd hll (by simp)
          · rw [if_neg hskip2] at hll
            obtain ⟨ht, hmem, hht⟩ := optConcatMap_none_mem hll
            rw [Option.map_eq_none'] at hht
            exact ⟨pre, hpre, line, hline, ht, hmem, hht⟩
      · rw [if_neg h1] at h
        by_cases h2 : fmt.getD (inferFormat d) = "F2"
        · rw [if_pos h2] at h
          exact absurd h (by simp)
        · rw [if_neg h2] at h
          exact absurd h (by simp)
  · intro d fmt hul hpre htab
    have hf0 : parseF0 d = [] := by
      unfold parseF0 qSel
      rw [hul]
      rfl
    have hf1 : parseF1 d = some [] := by
      unfold parseF1
      rw [hpre]
      rfl
    have hf2 : parseF2 d = [] := by
      unfold parseF2 qSel
      rw [htab]
      rfl
    have hev : ∀ s : String, entriesFor d s = some [] := by
      intro s
      unfold entriesFor
      by_cases h0 : s = "F0"
      · simp [h0, hf0]
      · by_cases h1 : s = "F1"
        · simp [h0, h1, hf1]
        · by_cases h2 : s = "F2"
          · simp [h0, h1, h2, hf2]
          · simp [h0, h1, h2]
    refine ⟨⟨((sSplit (((qSel "title" d).map textOf).getD "") "Index of ").get? 1).getD "/", []⟩, ?_, rfl⟩
    unfold parse
    simp [hev]

/-- C4 witness: the amended theorem applied at concrete inputs — the
throw characterisation at the malformed-escape link, the trace on the
throwing document, and the empty-markup degrade. -/
theorem c4_parse_degrades_witness :
    (parse (mkRoot []) (some "F0") ≠ none) ∧
      f1Link "x" ("100%.txt", "n..>") = none ∧
      (∃ pre ∈ qAll "pre" domThrow, ∃ line ∈ sSplit (textOf pre) "\n",
        ∃ ht ∈ findLinks line, f1Link line ht = none) ∧
      (∃ r : RootEntry, parse (mkRoot []) none = some r ∧ r.children = []) :=
  ⟨(c4_parse_degrades.1 (mkRoot [])).1,
   (c4_parse_degrades.2.1 "x" "100%.txt" "n..>").mpr
     ⟨by decide, by decide, by decide, rfl⟩,
   c4_parse_degrades.2.2.1 domThrow none rfl,
   c4_parse_degrades.2.2.2 (mkRoot []) none rfl rfl rfl⟩

/-! ## Claim C5: parent-directory anchors are never surfaced -/

/-- C5: parent-directory ("back") anchors never become entries in any
of the three extractors: an F0 list item whose anchor text is the
parent label contributes nothing; an F1 link with the parent label or
the root href contributes nothing (and throws nothing); an F2 row with
the parent icon marker, or whose link text is the parent label, is
skipped; and parsing a listing whose only link is the
parent-directory link yields an empty entry list in all three
formats. -/
theorem c5_parent_never_surfaced :
    (∀ li a : Dom, qSel "a" li = some a →
      sTrim (textOf a) = "Parent Directory" → processLiF0 li = none) ∧
    (∀ line h t : String, sTrim t = "Parent Directory" ∨ h = "/" →
      f1Link line (h, t) = some none) ∧
    (∀ row : String, findImgAlt ((findTds row).getD 0 "") = some "[PARENTDIR]" →
      processRowF2 row = none) ∧
    (∀ row href nameRaw : String,
      findLinkFirst ((findTds row).getD 1 "").data = some (href, nameRaw) →
      sTrim nameRaw = "Parent Directory" → processRowF2 row = none) ∧
    parse domF0Parent (some "F0") = some ⟨"/", []⟩ ∧
    parse domF1Parent (some "F1") = some ⟨"/", []⟩ ∧
    parse domF2Parent (some "F2") = some ⟨"/", []⟩ := by
  refine ⟨?_, ?_, ?_, ?_, rfl, rfl, rfl⟩
  · intro li a h1 h2
    unfold processLiF0
    rw [h1]
    simp [h2]
  · intro line h t hp
    unfold f1Link
    by_cases hq : sStarts h "?" = true
    · simp [hq]
    · simp only [Bool.not_eq_true] at hq
      simp [hq, hp]
  · intro row ha
    unfold processRowF2
    dsimp only
    split
    · rfl
    · split
      · rfl
      · rw [ha]
        simp
  · intro row href nameRaw hl hn
    unfold processRowF2
    dsimp only
    split
    · rfl
    · split
      · rfl
      · split
        · rfl
        · split
          · rfl
          · split
            · rfl
            · rw [hl]
              simp [hn]

/-- C5 witness: each skip rule applied at a concrete parent anchor. -/
theorem c5_parent_never_surfaced_witness :
    processLiF0 (mkLi "/" " Parent Directory") = none ∧
      f1Link "x" ("/", "Parent Directory") = some none ∧
      processRowF2 (innerHTML (mkRow "[PARENTDIR]" "/" "Parent Directory" "&nbsp;")) = none ∧
      processRowF2 (innerHTML (mkRow "[TXT]" "/x" "Parent Directory" "&nbsp;")) = none :=
  ⟨c5_parent_never_surfaced.1 (mkLi "/" " Parent Directory")
      (.elem "a" [("href", "/")] [.text " Parent Directory"]) rfl (by decide),
   c5_parent_never_surfaced.2.1 "x" "/" "Parent Directory" (Or.inl (by decide)),
   c5_parent_never_surfaced.2.2.1 _ (by decide),
   c5_parent_never_surfaced.2.2.2.1 _ "/x" "Parent Directory" (by decide) (by decide)⟩

/-! ## Claim C6: icon-marker handling in the table extractor -/

/-- C6 counterexample: a row whose icon marker is present but
unrecognised is not always skipped.  The bracketed marker `[IMG]` is
none of the recognised markers, yet the row is classified as a file
entry instead of being skipped. -/
theorem c6_counterexample :
    parseF2 domIcoRow = [.file "photo.png" "photo.png" none] ∧
      ("[IMG]" : String) ≠ "[DIR]" ∧ ("[IMG]" : String) ≠ "[TXT]" ∧
      ("[IMG]" : String) ≠ "[PARENTDIR]" :=
  ⟨rfl, by decide, by decide, by decide⟩

/-- C6 (amended): in the table extractor, a row with the
parent-directory marker is skipped, and a row whose icon cell yields
no bracket-shaped marker at all is skipped; but a bracket-shaped
marker other than the recognised ones does not cause a skip — the row
falls through and is classified by its href (trailing separator means
directory, otherwise file). -/
theorem c6_icon_markers :
    (∀ row : String, findImgAlt ((findTds row).getD 0 "") = none →
      processRowF2 row = none) ∧
    (∀ row : String, findImgAlt ((findTds row).getD 0 "") = some "[PARENTDIR]" →
      processRowF2 row = none) ∧
    (∀ row alt href nameRaw : String,
      sHas row "<th" = false → sHas row "<hr" = false →
      ¬((findTds row).length < 3) →
      findImgAlt ((findTds row).getD 0 "") = some alt →
      alt ≠ "[DIR]" → alt ≠ "[TXT]" → alt ≠ "[PARENTDIR]" →
      sStarts alt "[" = true →
      findLinkFirst ((findTds row).getD 1 "").data = some (href, nameRaw) →
      sTrim nameRaw ≠ "Parent Directory" →
      processRowF2 row =
        some (if sEnds href "/" then Entry.dir (sTrim nameRaw) href (rowDateF2 row) []
              else Entry.file (sTrim nameRaw) href (rowDateF2 row))) := by
  refine ⟨?_, ?_, ?_⟩
  · intro row ha
    unfold processRowF2
    dsimp only
    split
    · rfl
    · split
      · rfl
      · rw [ha]
  · intro row ha
    unfold processRowF2
    dsimp only
    split
    · rfl
    · split
      · rfl
      · rw [ha]
        simp
  · intro row alt href nameRaw hth hhr hlen ha hd ht hpd hbr hl hn
    unfold processRowF2
    dsimp only
    rw [ha, hl]
    simp [hth, hhr, hlen, hd, ht, hpd, hbr, hn]
    split <;> rfl

/-- C6 witness: the amended rules applied at concrete rows — a
divider-only icon cell, a parent row, and an `[IMG]` row classified as
a directory by its trailing-separator href. -/
theorem c6_icon_markers_witness :
    processRowF2 (innerHTML (mkRow "No icon" "x" "x" "&nbsp;")) = none ∧
      processRowF2 (innerHTML (mkRow "[PARENTDIR]" "/" "Parent Directory" "&nbsp;")) = none ∧
      processRowF2 (innerHTML (mkRow "[IMG]" "pics/" "pics/" "&nbsp;")) =
        some (Entry.dir "pics/" "pics/" none []) := by
  refine ⟨c6_icon_markers.1 _ (by decide), c6_icon_markers.2.1 _ (by decide), ?_⟩
  have h := c6_icon_markers.2.2 (innerHTML (mkRow "[IMG]" "pics/" "pics/" "&nbsp;"))
    "[IMG]" "pics/" "pics/" (by decide) (by decide) (by decide) (by decide)
    (by decide) (by decide) (by decide) (by decide) (by decide) (by decide)
  rw [h]
  rfl

/-! ## Claim C7: timestamps in the preformatted extractor -/

/-- C7 counterexample: only one date shape is accepted.  An F1 entry
line carrying a day-month-name-year date (`02-Jan-2020 15:30`) yields
an entry with no timestamp, although the claim says such a variant is
parsed to an absolute instant. -/
theorem c7_counterexample :
    parse domF1Dmy (some "F1") = some ⟨"/", [.file "old.txt" "old.txt" none]⟩ ∧
      sHas (textOf domF1Dmy) "02-Jan-2020 15:30" = true :=
  ⟨rfl, by decide⟩

/-- C7 (amended): in the preformatted extractor, every produced
entry's timestamp is exactly the line's date extraction `f1Date`,
which recognises only the `YYYY-MM-DD HH:MM` shape (anywhere in the
line): no match means the timestamp is omitted, a match is parsed as a
UTC instant, a calendar-invalid match is omitted without raising, and
a valid match yields the epoch milliseconds (concretely
`2023-06-15 12:30` ↦ `1686832200000`). -/
theorem c7_f1_dates :
    (∀ (line : String) (ht : String × String) (e : Entry),
      f1Link line ht = some (some e) → e.lastModified = f1Date line) ∧
    (∀ line : String, findDate line = none → f1Date line = none) ∧
    (∀ (line : String) (c : Nat × Nat × Nat × Nat × Nat),
      findDate line = some c → f1Date line = jsDateIso c) ∧
    f1Date "x 2020-13-01 10:00" = none ∧
    parse domF1Iso (some "F1") =
      some ⟨"/", [.file "new.txt" "new.txt" (some 1686832200000)]⟩ := by
  refine ⟨?_, ?_, ?_, rfl, rfl⟩
  · intro line ht e h
    unfold f1Link at h
    dsimp only at h
    split at h
    · simp at h
    · split at h
      · simp at h
      · split at h
        · split at h
          · exact absurd h (by simp)
          · simp only [Option.some.injEq] at h
            rw [← h]
            unfold f1Mk
            split <;> rfl
        · simp only [Option.some.injEq] at h
          rw [← h]
          unfold f1Mk
          split <;> rfl
  · intro line h
    unfold f1Date
    rw [h]
  · intro line c h
    unfold f1Date
    rw [h]

/-- C7 witness: the amended theorem applied at a concrete line that
produces an entry, and at lines with no/valid date matches. -/
theorem c7_f1_dates_witness :
    Entry.lastModified (.file "new.txt" "new.txt" (some 1686832200000)) =
      f1Date "<a href=\"new.txt\">new.txt</a> 2023-06-15 12:30" ∧
      f1Date "no date here" = none ∧
      f1Date "x 2023-06-15 12:30" = jsDateIso (2023, 6, 15, 12, 30) :=
  ⟨c7_f1_dates.1 "<a href=\"new.txt\">new.txt</a> 2023-06-15 12:30"
      ("new.txt", "new.txt") _ rfl,
   c7_f1_dates.2.1 "no date here" rfl,
   c7_f1_dates.2.2.1 "x 2023-06-15 12:30" (2023, 6, 15, 12, 30) rfl⟩

/-! ## Claim C8: truncated-name recovery -/

/-- C8 counterexample: recovery does not happen for every truncated
entry.  A truncated link text whose href contains no percent escape
keeps the truncated visible text as the entry name (the claim demands
the href's final path segment, here `longfilename.txt`). -/
theorem c8_counterexample :
    parse domF1TruncPlain (some "F1") =
      some ⟨"/", [.file "longfilena..>" "longfilename.txt" none]⟩ ∧
      sEnds "longfilena..>" "..>" = true ∧
      decodeURIComponent "longfilename.txt" = some "longfilename.txt" ∧
      ("longfilena..>" : String) ≠ "longfilename.txt" :=
  ⟨rfl, by decide, rfl, by decide⟩

/-- C8 (amended): for a non-skipped F1 link whose cleaned display name
ends with the ellipsis marker `..>`, the name is recovered from the
href only when percent-decoding changes it: if decoding throws, the
exception escapes; if the decoded href differs from the raw one, the
name becomes the final path segment of the decoded href (one trailing
separator removed first, empty segment falling back to the truncated
text); if decoding leaves the href unchanged, the truncated visible
text is kept. -/
theorem c8_trunc_recovery :
    (∀ line h t : String, sStarts h "?" = false →
      ¬(sTrim t = "Parent Directory" ∨ h = "/") →
      sEnds (f1Name1 line h t) "..>" = true →
      decodeURIComponent h = none → f1Link line (h, t) = none) ∧
    (∀ line h t d : String, sStarts h "?" = false →
      ¬(sTrim t = "Parent Directory" ∨ h = "/") →
      sEnds (f1Name1 line h t) "..>" = true →
      decodeURIComponent h = some d → d ≠ h →
      f1Link line (h, t) =
        some (some (f1Mk line h
          (lastSegOr (if sEnds d "/" then sDropLast d else d) (f1Name1 line h t))))) ∧
    (∀ line h t : String, sStarts h "?" = false →
      ¬(sTrim t = "Parent Directory" ∨ h = "/") →
      sEnds (f1Name1 line h t) "..>" = true →
      decodeURIComponent h = some h →
      f1Link line (h, t) = some (some (f1Mk line h (f1Name1 line h t)))) := by
  refine ⟨?_, ?_, ?_⟩
  · intro line h t hq hp htr hdec
    unfold f1Link
    dsimp only
    rw [if_neg (by simp [hq]), if_neg hp, if_pos htr, hdec]
  · intro line h t d hq hp htr hdec hne
    unfold f1Link
    dsimp only
    rw [if_neg (by simp [hq]), if_neg hp, if_pos htr, hdec]
    simp [hne]
  · intro line h t hq hp htr hdec
    unfold f1Link
    dsimp only
    rw [if_neg (by simp [hq]), if_neg hp, if_pos htr, hdec]
    simp

/-- C8 witness: the amended rules applied at concrete links — a
malformed escape (throw), an escape-bearing href (recovered name), and
an escape-free href (truncated text kept). -/
theorem c8_trunc_recovery_witness :
    f1Link "x" ("100%.txt", "n..>") = none ∧
      f1Link "x" ("sp%20name.txt", "sp%20nam..>") =
        some (some (f1Mk "x" "sp%20name.txt"
          (lastSegOr "sp name.txt" (f1Name1 "x" "sp%20name.txt" "sp%20nam..>")))) ∧
      f1Link "x" ("longfilename.txt", "longfilena..>") =
        some (some (f1Mk "x" "longfilename.txt"
          (f1Name1 "x" "longfilename.txt" "longfilena..>"))) := by
  refine ⟨c8_trunc_recovery.1 "x" "100%.txt" "n..>" (by decide) (by decide)
      (by decide) rfl, ?_, ?_⟩
  · have h := c8_trunc_recovery.2.1 "x" "sp%20name.txt" "sp%20nam..>" "sp name.txt"
      (by decide) (by decide) (by decide) rfl (by decide)
    rw [h]
    rfl
  · exact c8_trunc_recovery.2.2 "x" "longfilename.txt" "longfilena..>"
      (by decide) (by decide) (by decide) rfl

/-! ## Claim C9: base-path normalisation (spec-modelled) -/

theorem sHas_dslash (s : String) : sHas s "//" = listHasSub ['/', '/'] s.data := rfl

theorem hasSub_of_pfx {sub l : List Char} (h : listPfx sub l = true) :
    listHasSub sub l = true := by
  cases l <;> simp [listHasSub, h]

theorem hasSub_tail {sub : List Char} {c : Char} {cs : List Char}
    (h : listHasSub sub cs = true) : listHasSub sub (c :: cs) = true := by
  simp [listHasSub, h]

theorem hasSub2_append {a b : Char} {xs ys : List Char}
    (h : listHasSub [a, b] (xs ++ ys) = true) :
    listHasSub [a, b] xs = true ∨
      (listPfx [b] ys = true ∧ listPfx [a] xs.reverse = true) ∨
      listHasSub [a, b] ys = true := by
  induction xs with
  | nil => right; right; simpa using h
  | cons x xs' ih =>
    rw [List.cons_append, listHasSub] at h
    rcases Bool.or_eq_true_iff.mp h with hp | hr
    · obtain ⟨t, ht⟩ := lpfx_two.mp hp
      rw [List.cons.injEq] at ht
      obtain ⟨hx, htl⟩ := ht
      cases xs' with
      | nil =>
        right; left
        constructor
        · simp only [List.nil_append] at htl
          rw [htl]
          exact lpfx_one.mpr ⟨t, rfl⟩
        · rw [List.reverse_cons, List.reverse_nil, List.nil_append, hx]
          exact lpfx_one.mpr ⟨[], rfl⟩
      | cons z zs =>
        left
        rw [List.cons_append, List.cons.injEq] at htl
        obtain ⟨hz, -⟩ := htl
        rw [listHasSub]
        apply Bool.or_eq_true_iff.mpr
        left
        exact lpfx_two.mpr ⟨zs, by rw [hx, hz]⟩
    · rcases ih hr with h1 | ⟨h2, h3⟩ | h4
      · left
        rw [listHasSub]
        exact Bool.or_eq_true_iff.mpr (Or.inr h1)
      · right; left
        refine ⟨h2, ?_⟩
        obtain ⟨w, hw⟩ := lpfx_one.mp h3
        rw [List.reverse_cons, hw]
        exact lpfx_one.mpr ⟨w ++ [x], rfl⟩
      · right; right; exact h4

theorem basePrefix_starts (r : String) :
    sStarts ("/cdn/unicode" ++ "/" ++ r) "/" = true ∧
      sStarts ("/cdn/unicode" ++ "/" ++ r) "//" = false := by
  rw [sStarts_slash, sStarts_dslash, sdata_append, sdata_append]
  have h1 : ("/cdn/unicode" : String).data = '/' :: 'c' :: "dn/unicode".data := rfl
  rw [h1]
  simp [listPfx]

theorem basePrefix_noDS (p : String) (hp : sHas p "//" = false) :
    sHas ("/cdn/unicode" ++ "/" ++ trimLeadingSlash p) "//" = false := by
  rw [sHas_dslash] at hp ⊢
  by_contra hc
  rw [Bool.not_eq_false] at hc
  rw [sdata_append] at hc
  rcases hasSub2_append hc with h1 | ⟨h2, -⟩ | h3
  · rw [sdata_append] at h1
    rcases hasSub2_append h1 with g1 | ⟨-, g2⟩ | g3
    · exact absurd g1 (by decide)
    · exact absurd g2 (by decide)
    · exact absurd g3 (by decide)
  · unfold trimLeadingSlash at h2
    by_cases hsp : sStarts p "/" = true
    · rw [if_pos hsp] at h2
      obtain ⟨t, ht⟩ := lpfx_one.mp h2
      have hdrop : (sDrop1 p).data = p.data.drop 1 := rfl
      rw [hdrop] at ht
      obtain ⟨u, hu⟩ := lpfx_one.mp (sStarts_slash p ▸ hsp)
      rw [hu] at ht
      simp only [List.drop_succ_cons, List.drop_zero] at ht
      have : listHasSub ['/', '/'] p.data = true := by
        rw [hu, ht]
        exact hasSub_of_pfx (by simp [listPfx])
      rw [this] at hp
      exact absurd hp (by decide)
    · rw [if_neg hsp] at h2
      rw [sStarts_slash] at hsp
      exact hsp h2
  · unfold trimLeadingSlash at h3
    by_cases hsp : sStarts p "/" = true
    · rw [if_pos hsp] at h3
      have hdrop : (sDrop1 p).data = p.data.drop 1 := rfl
      rw [hdrop] at h3
      obtain ⟨u, hu⟩ := lpfx_one.mp (sStarts_slash p ▸ hsp)
      rw [hu] at h3
      simp only [List.drop_succ_cons, List.drop_zero] at h3
      have : listHasSub ['/', '/'] p.data = true := by
        rw [hu]
        exact hasSub_tail h3
      rw [this] at hp
      exact absurd hp (by decide)
    · rw [if_neg hsp] at h3
      rw [h3] at hp
      exact absurd hp (by decide)

/-- C9: for every parse result, applying the base-path values
`"cdn/unicode"`, `"/cdn/unicode"` and `"/cdn/unicode/"` yields
identical entry paths; each rewritten path begins with exactly one
leading separator (it starts with `"/"` but not `"//"`), and — when
the source hrefs contain no doubled separator, which every Apache
listing satisfies — the rewritten paths contain no duplicated
separators either.  (The base-path-applying parse facade is modelled
from the spec via `applyBasePath`, over the `src/lib.ts` helpers.) -/
theorem c9_basepath_normalization :
    (∀ es : List Entry,
      applyBasePath "cdn/unicode" es = applyBasePath "/cdn/unicode" es ∧
      applyBasePath "cdn/unicode" es = applyBasePath "/cdn/unicode/" es) ∧
    (∀ es : List Entry,
      ((applyBasePath "cdn/unicode" es).all
        (fun e => sStarts e.path "/" && !sStarts e.path "//")) = true) ∧
    (∀ es : List Entry, (es.all fun e => !sHas e.path "//") = true →
      ((applyBasePath "cdn/unicode" es).all fun e => !sHas e.path "//") = true) := by
  have hb1 : entryWithBase "cdn/unicode" = entryWithBase "/cdn/unicode" :=
    funext fun e => by cases e <;> rfl
  have hb2 : entryWithBase "cdn/unicode" = entryWithBase "/cdn/unicode/" :=
    funext fun e => by cases e <;> rfl
  have hpath : ∀ e : Entry, (entryWithBase "cdn/unicode" e).path =
      "/cdn/unicode" ++ "/" ++ trimLeadingSlash e.path := by
    intro e
    cases e <;> rfl
  refine ⟨?_, ?_, ?_⟩
  · intro es
    constructor
    · unfold applyBasePath
      rw [hb1]
    · unfold applyBasePath
      rw [hb2]
  · intro es
    induction es with
    | nil => rfl
    | cons e es' ih =>
      unfold applyBasePath at ih ⊢
      rw [List.map_cons, List.all_cons, ih, Bool.and_true]
      rw [hpath e]
      rw [(basePrefix_starts (trimLeadingSlash e.path)).1,
          (basePrefix_starts (trimLeadingSlash e.path)).2]
      rfl
  · intro es h
    induction es with
    | nil => rfl
    | cons e es' ih =>
      rw [List.all_cons, Bool.and_eq_true] at h
      unfold applyBasePath
      rw [List.map_cons, List.all_cons]
      have h1 : (!sHas (entryWithBase "cdn/unicode" e).path "//") = true := by
        rw [hpath e, Bool.not_eq_true']
        exact basePrefix_noDS e.path (by rw [← Bool.not_eq_true']; exact h.1)
      rw [h1]
      have h2 := ih h.2
      unfold applyBasePath at h2
      rw [h2]
      rfl

/-- C9 witness: the base-path theorem applied to a concrete parse
result (one file, one directory). -/
theorem c9_basepath_normalization_witness :
    applyBasePath "cdn/unicode" esBase = applyBasePath "/cdn/unicode" esBase ∧
      ((applyBasePath "cdn/unicode" esBase).all
        (fun e => sStarts e.path "/" && !sStarts e.path "//")) = true ∧
      ((applyBasePath "cdn/unicode" esBase).all fun e => !sHas e.path "//") = true :=
  ⟨(c9_basepath_normalization.1 esBase).1,
   c9_basepath_normalization.2.1 esBase,
   c9_basepath_normalization.2.2 esBase (by decide)⟩

/-! ## Claim C1: failure containment in the traversal -/

theorem traverseInternal_succ (c : Ctx) (n : Nat) (url pfx : String) :
    traverseInternal c (n + 1) url pfx =
      match fetchDom c url with
      | none => []
      | some dom =>
        match parsedEntries c dom with
        | none => []
        | some es => es.map (traverseStep c n url pfx) := rfl

/-- C1: when the fetch for a URL fails (network failure or non-success
response), the whole subtree rooted there resolves to the empty list
(for every fuel, so at every depth) without any exception escaping;
and at a level that did fetch and parse, one output entry is produced
per parsed entry in order — so siblings of a failing subdirectory are
still returned — while a directory entry whose child URL fails to
fetch carries an empty `children` array. -/
theorem c1_failure_containment :
    (∀ (c : Ctx) (n : Nat) (url pfx : String), fetchDom c url = none →
      traverseInternal c n url pfx = []) ∧
    (∀ (c : Ctx) (n : Nat) (url pfx : String) (dom : Dom) (es : List Entry),
      fetchDom c url = some dom → parsedEntries c dom = some es →
      (traverseInternal c (n + 1) url pfx).length = es.length ∧
      (∀ (i : Nat) (nm p : String) (lm : Option Int) (cs : List Entry),
        es[i]? = some (.dir nm p lm cs) →
        fetchDom c (joinUrl url p) = none →
        (traverseInternal c (n + 1) url pfx)[i]? =
          some (.dir (trimTrailingSlash nm) (fullPathOf pfx p) lm []))) := by
  have hfail : ∀ (c : Ctx) (n : Nat) (url pfx : String), fetchDom c url = none →
      traverseInternal c n url pfx = [] := by
    intro c n url pfx h
    cases n with
    | zero => rfl
    | succ n =>
      rw [traverseInternal_succ, h]
  refine ⟨hfail, ?_⟩
  intro c n url pfx dom es h1 h2
  simp only [traverseInternal_succ, h1, h2]
  constructor
  · exact List.length_map es _
  · intro i nm p lm cs hi hfetch
    rw [List.getElem?_map, hi]
    unfold traverseStep
    simp only [Option.map_some']
    dsimp only [Entry.path]
    rw [hfail c n (joinUrl url p) (fullPathOf pfx p) hfetch]

/-- C1 witness: the containment theorem applied to the concrete
sibling scenario (`ok.txt` next to a subdirectory whose fetch
fails). -/
theorem c1_failure_containment_witness :
    fetchDom ctxSib "http://h/bad/" = none ∧
      (traverseInternal ctxSib 2 "http://h/" "").length = 2 ∧
      (traverseInternal ctxSib 2 "http://h/" "")[1]? =
        some (.dir "bad" "bad" none []) := by
  have h := c1_failure_containment.2 ctxSib 1 "http://h/" "" domF0Sib
    [.file "ok.txt" "ok.txt" none, .dir "bad" "bad/" none []] rfl rfl
  refine ⟨rfl, h.1, ?_⟩
  have h2 := h.2 1 "bad" "bad/" none [] rfl rfl
  rw [h2]
  rfl

/-! ## Claim C10: path trimming in the traversal -/

/-- C10 counterexample: a traversal entry's path can start with the
separator.  The helpers strip at most one slash at each end, so an
href with a doubled leading separator (`"//a"`) survives as the path
`"/a"`. -/
theorem c10_counterexample :
    traverse ctxSlash 1 "u" = [.file "x" "/a" none] ∧
      sStarts (Entry.path (.file "x" "/a" none)) "/" = true :=
  ⟨rfl, by decide⟩

theorem dropLast_reverse (l : List Char) : l.dropLast.reverse = l.reverse.drop 1 := by
  induction l using List.reverseRecOn with
  | nil => rfl
  | append_singleton xs x ih => simp

theorem lpfx_one_false_head {a c : Char} {l : List Char} (h : c ≠ a) :
    listPfx [a] (c :: l) = false := by
  simp [listPfx, h, Ne.symm h]

theorem lpfx_two_false_head {a b c : Char} {l : List Char} (h : c ≠ a) :
    listPfx [a, b] (c :: l) = false := by
  cases l <;> simp [listPfx, h, Ne.symm h]

theorem sdrop1_data (s : String) : (sDrop1 s).data = s.data.drop 1 := rfl

theorem sdroplast_data (s : String) : (sDropLast s).data = s.data.dropLast := rfl

theorem pfx_dropLast {l : List Char} (h : listPfx ['/'] l = false) :
    listPfx ['/'] l.dropLast = false := by
  cases l with
  | nil => rfl
  | cons c u =>
    have hc : c ≠ '/' := by
      intro hc
      rw [hc] at h
      simp [listPfx] at h
    cases u with
    | nil => rfl
    | cons d v =>
      rw [List.dropLast_cons₂]
      exact lpfx_one_false_head hc

theorem trim2_clean (j : String) (h1 : sStarts j "//" = false)
    (h2 : sEnds j "//" = false) :
    pathClean (trimTrailingSlash (trimLeadingSlash j)) = true := by
  have key : sStarts (trimLeadingSlash j) "/" = false ∧
      sEnds (trimLeadingSlash j) "//" = false := by
    unfold trimLeadingSlash
    by_cases hs : sStarts j "/" = true
    · rw [if_pos hs]
      obtain ⟨u, hu⟩ := lpfx_one.mp (sStarts_slash j ▸ hs)
      constructor
      · rw [sStarts_slash, sdrop1_data, hu, List.drop_succ_cons, List.drop_zero]
        by_contra hc
        rw [Bool.not_eq_false] at hc
        obtain ⟨v, hv⟩ := lpfx_one.mp hc
        rw [sStarts_dslash, hu, hv] at h1
        simp [listPfx] at h1
      · rw [sEnds_dslash, sdrop1_data, hu, List.drop_succ_cons, List.drop_zero]
        by_contra hc
        rw [Bool.not_eq_false] at hc
        obtain ⟨v, hv⟩ := lpfx_two.mp hc
        rw [sEnds_dslash, hu] at h2
        rw [List.reverse_cons, hv] at h2
        simp [listPfx] at h2
    · rw [if_neg hs]
      simp only [Bool.not_eq_true] at hs
      exact ⟨hs, h2⟩
  obtain ⟨t1, t2⟩ := key
  set t := trimLeadingSlash j with ht
  have t3 : t ≠ "/" := by
    intro hc
    rw [hc] at t1
    exact absurd t1 (by decide)
  unfold trimTrailingSlash
  rw [if_neg t3]
  by_cases he : sEnds t "/" = true
  · rw [if_pos he]
    unfold pathClean
    have r1 : sStarts (sDropLast t) "/" = false := by
      rw [sStarts_slash, sdroplast_data]
      rw [sStarts_slash] at t1
      exact pfx_dropLast t1
    have r2 : sEnds (sDropLast t) "/" = false := by
      rw [sEnds_slash, sdroplast_data, dropLast_reverse]
      obtain ⟨v, hv⟩ := lpfx_one.mp (sEnds_slash t ▸ he)
      rw [hv, List.drop_succ_cons, List.drop_zero]
      by_contra hc
      rw [Bool.not_eq_false] at hc
      obtain ⟨w, hw⟩ := lpfx_one.mp hc
      rw [sEnds_dslash, hv, hw] at t2
      simp [listPfx] at t2
    rw [r1, r2]
    rfl
  · rw [if_neg he]
    unfold pathClean
    simp only [Bool.not_eq_true] at he
    rw [t1, he]
    rfl

theorem string_ne_empty_data {s : String} (h : s ≠ "") : s.data ≠ [] := by
  intro hc
  apply h
  cases s
  simp at hc
  rw [hc]

theorem fullPathOf_clean (pfx h : String) (hp : pathClean pfx = true)
    (hh : hrefTame h = true) : pathClean (fullPathOf pfx h) = true := by
  simp only [pathClean, Bool.and_eq_true, Bool.not_eq_true'] at hp
  obtain ⟨hp1, hp2⟩ := hp
  simp only [hrefTame, Bool.and_eq_true, Bool.not_eq_true',
    beq_eq_false_iff_ne, ne_eq] at hh
  obtain ⟨⟨hh1, hh2⟩, hne⟩ := hh
  unfold fullPathOf
  by_cases hpe : pfx ≠ ""
  · rw [if_pos hpe]
    apply trim2_clean
    · obtain ⟨c, w, hcw⟩ : ∃ c w, pfx.data = c :: w := by
        cases hd : pfx.data with
        | nil => exact absurd hd (string_ne_empty_data hpe)
        | cons c w => exact ⟨c, w, rfl⟩
      have hcne : c ≠ '/' := by
        intro hc
        rw [sStarts_slash, hcw, hc] at hp1
        simp [listPfx] at hp1
      rw [sStarts_dslash, sdata_append, sdata_append, hcw]
      rw [List.cons_append, List.cons_append]
      exact lpfx_two_false_head hcne
    · rw [sEnds_dslash, sdata_append, sdata_append, List.append_assoc,
        List.reverse_append]
      have hslash : (("/" : String).data ++ h.data).reverse =
          h.data.reverse ++ ['/'] := by
        rw [List.reverse_append]
        rfl
      rw [hslash]
      cases hrev : h.data.reverse with
      | nil =>
        simp only [List.nil_append, List.cons_append]
        rw [sEnds_slash] at hp2
        cases hh : listPfx ['/'] pfx.data.reverse
        · simp [listPfx, hh]
        · rw [hh] at hp2; exact absurd hp2 (by decide)
      | cons a v =>
        cases v with
        | nil =>
          have ha : a ≠ '/' := by
            intro hc
            apply hne
            apply String.ext
            have hd := congrArg List.reverse hrev
            rw [List.reverse_reverse] at hd
            rw [hd, hc]
            rfl
          simp only [List.cons_append, List.nil_append]
          exact lpfx_two_false_head ha
        | cons b w =>
          simp only [List.cons_append]
          rw [sEnds_dslash, hrev] at hh2
          cases hab : listPfx ['/', '/'] (a :: b :: (w ++ ['/'] ++ pfx.data.reverse))
          · rfl
          · exfalso
            obtain ⟨t, htt⟩ := lpfx_two.mp hab
            rw [List.cons.injEq, List.cons.injEq] at htt
            obtain ⟨ha, hb, -⟩ := htt
            rw [ha, hb] at hh2
            simp [listPfx] at hh2
  · rw [if_neg hpe]
    exact trim2_clean h hh1 hh2

theorem ctxTame_entries {c : Ctx} (hc : ctxTame c = true) {url : String} {dom : Dom}
    (hf : fetchDom c url = some dom) {es : List Entry}
    (hp : parsedEntries c dom = some es) :
    es.all (fun e => hrefTame e.path) = true := by
  unfold fetchDom at hf
  cases hfind : c.pages.find? (fun p => p.1 = url) with
  | none => rw [hfind] at hf; exact absurd hf (by simp)
  | some pr =>
    rw [hfind] at hf
    simp only [Option.map_some', Option.some.injEq] at hf
    have hmem : pr ∈ c.pages := List.mem_of_find?_eq_some hfind
    unfold ctxTame at hc
    rw [List.all_eq_true] at hc
    have htame := hc pr hmem
    rw [hf, hp] at htame
    exact htame

/-- C10 (amended): every accumulated path is passed through
`trimLeadingSlash` then `trimTrailingSlash` at every recursion level,
and these remove at most one separator at each end; consequently, when
every href produced by `parse` on the traversed pages neither starts
nor ends with a doubled separator `"//"` and is not the bare `"/"`
(`ctxTame` — true of well-formed listings), every entry returned by
`traverse`, at every depth (including the entries handed to the
callbacks, which are the returned objects themselves), has a path that
neither starts nor ends with the separator. -/
theorem c10_traverse_paths :
    (∀ (c : Ctx), ctxTame c = true → ∀ (n : Nat) (url pfx : String),
      pathClean pfx = true → allPathsClean (traverseInternal c n url pfx) = true) ∧
    (∀ (c : Ctx), ctxTame c = true → ∀ (fuel : Nat) (url : String),
      allPathsClean (traverse c fuel url) = true) := by
  have main : ∀ (c : Ctx), ctxTame c = true → ∀ (n : Nat) (url pfx : String),
      pathClean pfx = true → allPathsClean (traverseInternal c n url pfx) = true := by
    intro c hc n
    induction n with
    | zero => intro url pfx _; rfl
    | succ n ih =>
      intro url pfx hp
      rw [traverseInternal_succ]
      cases hf : fetchDom c url with
      | none => rfl
      | some dom =>
        dsimp only
        cases hpe : parsedEntries c dom with
        | none => rfl
        | some es =>
          dsimp only
          have hall := ctxTame_entries hc hf hpe
          clear hf hpe
          induction es with
          | nil => rfl
          | cons e es' ihes =>
            rw [List.all_cons, Bool.and_eq_true] at hall
            rw [List.map_cons, allPathsClean, Bool.and_eq_true]
            constructor
            · cases e with
              | file nm p lm =>
                show entryPathsClean (.file nm (fullPathOf pfx p) lm) = true
                rw [entryPathsClean]
                exact fullPathOf_clean pfx p hp hall.1
              | dir nm p lm cs =>
                show entryPathsClean (.dir (trimTrailingSlash nm) (fullPathOf pfx p)
                  lm (traverseInternal c n (joinUrl url p) (fullPathOf pfx p))) = true
                rw [entryPathsClean, Bool.and_eq_true]
                have hcl := fullPathOf_clean pfx p hp hall.1
                exact ⟨hcl, ih (joinUrl url p) (fullPathOf pfx p) hcl⟩
            · exact ihes hall.2
  exact ⟨main, fun c hc fuel url => main c hc fuel url "" rfl⟩

/-- C10 witness: the trimming theorem applied to a concrete tame
context (one page with a file and a subdirectory). -/
theorem c10_traverse_paths_witness :
    ctxTame ctxTameEx = true ∧
      allPathsClean (traverse ctxTameEx 2 "u") = true :=
  ⟨by decide, c10_traverse_paths.2 ctxTameEx (by decide) 2 "u"⟩

end AutoIndexParse
